import Mathlib

/-!
Verification development for the reactive dependency-tracking engine, its
update scheduler, and the tree-diffing/patch engine of a Vue 2.5-style
runtime.  Each Lean definition is a shallow embedding of one function of
the JavaScript source (src/core/observer/index.js, src/core/observer/array.js,
the Watcher class, and the patch module's updateChildren); theorems settle
the specification's claims about those functions.
-/

namespace Vue

/-- Model of a JavaScript runtime value as far as the observer layer
inspects it: finite numbers, NaN, strings, booleans, undefined, and
reference values (objects and arrays carry a reference identity `id`,
standing for the heap address compared by `===`). -/
inductive JsVal where
  | num (n : Int)
  | nan
  | str (s : String)
  | boolean (b : Bool)
  | undef
  | obj (id : Nat)
  | arr (id : Nat)
deriving DecidableEq, Repr

/-- JavaScript strict equality `===` on modelled values: NaN is not equal
to anything (including itself); numbers, strings and booleans compare by
value; objects and arrays compare by reference identity. -/
def jsStrictEq : JsVal → JsVal → Bool
  | JsVal.nan, _ => false
  | _, JsVal.nan => false
  | a, b => a == b

/-- Embedding of the source's `isObject` check (`typeof obj === 'object'
&& obj !== null`): true exactly for objects and arrays. -/
def isObjectVal : JsVal → Bool
  | JsVal.obj _ => true
  | JsVal.arr _ => true
  | _ => false

/-- Embedding of `observe(value)` restricted to what the setter needs: it
produces an Observer (returns a defined `__ob__`) exactly when the value
is a plain object or array (the extensible, non-VNode, non-Vue case of
src/core/observer/index.js `observe`). -/
def observeVal (v : JsVal) : Bool := isObjectVal v

/-- State of one reactive property defined by `defineReactive`
(src/core/observer/index.js, data-property case: no pre-existing
getter/setter, `shallow` false): the closure variable `val`, the closure
`childOb` (whether the current value is observed), and a count of
`dep.notify()` calls made by the setter. -/
structure ReactiveProp where
  val : JsVal
  childOb : Bool
  notifyCount : Nat
deriving DecidableEq, Repr

/-- Embedding of `reactiveSetter` from `defineReactive`
(src/core/observer/index.js lines 210-229): the guard is the literal
translation of `newVal === value || (newVal !== newVal && value !== value)`;
otherwise `val = newVal`, `childOb = !shallow && observe(newVal)`, then
`dep.notify()`. -/
def reactiveSetter (p : ReactiveProp) (newVal : JsVal) : ReactiveProp :=
  let value := p.val
  if jsStrictEq newVal value || (!jsStrictEq newVal newVal && !jsStrictEq value value) then
    p
  else
    { val := newVal
      childOb := observeVal newVal
      notifyCount := p.notifyCount + 1 }

/-- NaN test, used to phrase the claim's "writing NaN when the current
value is also NaN" condition. -/
def isNaNVal : JsVal → Bool
  | JsVal.nan => true
  | _ => false

theorem jsStrictEq_self_false_iff (v : JsVal) : jsStrictEq v v = false ↔ isNaNVal v = true := by
  cases v <;> simp [jsStrictEq, isNaNVal]

/-- C5: writing a value identical (`===`) to the current one, or writing
NaN over NaN, leaves the stored value, the child observer and the notify
count unchanged; any other write replaces the stored value, observes it
exactly when it is an object/array, and notifies the property's Dep
exactly once. -/
theorem defineReactive_setter_spec (p : ReactiveProp) (v : JsVal) :
    (jsStrictEq v p.val = true ∨ (isNaNVal v = true ∧ isNaNVal p.val = true) →
      reactiveSetter p v = p) ∧
    (¬ (jsStrictEq v p.val = true ∨ (isNaNVal v = true ∧ isNaNVal p.val = true)) →
      (reactiveSetter p v).val = v ∧
      (reactiveSetter p v).childOb = isObjectVal v ∧
      (reactiveSetter p v).notifyCount = p.notifyCount + 1) := by
  constructor
  · intro h
    rcases h with h | ⟨h1, h2⟩
    · simp [reactiveSetter, h]
    · rw [← jsStrictEq_self_false_iff] at h1 h2
      simp [reactiveSetter, h1, h2]
  · intro h
    push_neg at h
    obtain ⟨h1, h2⟩ := h
    have hcase : jsStrictEq v p.val = false := by
      cases hh : jsStrictEq v p.val
      · rfl
      · exact absurd hh h1
    by_cases hn : isNaNVal v = true
    · have hpn : isNaNVal p.val = false := by
        cases hh : isNaNVal p.val
        · rfl
        · exact absurd hh (h2 hn)
      have hv : jsStrictEq v v = false := (jsStrictEq_self_false_iff v).mpr hn
      have hp : ¬ jsStrictEq p.val p.val = false := by
        rw [jsStrictEq_self_false_iff]
        simp [hpn]
      have hp' : jsStrictEq p.val p.val = true := by
        cases hh : jsStrictEq p.val p.val
        · exact absurd hh hp
        · rfl
      simp [reactiveSetter, hcase, hv, hp', observeVal]
    · have hv : jsStrictEq v v = true := by
        cases hh : jsStrictEq v v
        · exact absurd ((jsStrictEq_self_false_iff v).mp hh) hn
        · rfl
      simp [reactiveSetter, hcase, hv, observeVal]

/-- Closed instance of `defineReactive_setter_spec`: writing the number 2
over 1 notifies once; rewriting the identical object reference does not. -/
theorem defineReactive_setter_spec_witness :
    (reactiveSetter ⟨JsVal.num 1, false, 0⟩ (JsVal.num 2)).notifyCount = 1 ∧
    reactiveSetter ⟨JsVal.obj 5, true, 3⟩ (JsVal.obj 5) = ⟨JsVal.obj 5, true, 3⟩ ∧
    reactiveSetter ⟨JsVal.nan, false, 2⟩ JsVal.nan = ⟨JsVal.nan, false, 2⟩ := by
  refine ⟨((defineReactive_setter_spec ⟨JsVal.num 1, false, 0⟩ (JsVal.num 2)).2 (by decide)).2.2, ?_, ?_⟩
  · exact (defineReactive_setter_spec ⟨JsVal.obj 5, true, 3⟩ (JsVal.obj 5)).1 (by decide)
  · exact (defineReactive_setter_spec ⟨JsVal.nan, false, 2⟩ JsVal.nan).1 (by decide)

/-! ### Watcher.run (the scheduler job interface) -/

/-- State of a Watcher as far as `run()` inspects it: the `active` flag,
the `deep` option, the last computed `value`, and a log of callback
invocations, each recording the `(value, oldValue)` pair the callback
received. -/
structure RunWatcher where
  active : Bool
  deep : Bool
  value : JsVal
  cbLog : List (JsVal × JsVal)
deriving DecidableEq, Repr

/-- Embedding of `Watcher.run` (Watcher class, lines 214-243).  The
parameter `newValue` is the result of `this.get()` (the re-evaluation);
the callback fires when `value !== this.value || isObject(value) ||
this.deep`, receiving the new and old value.  The user/try-catch split
inside the callback invocation does not affect which calls happen and is
not modelled here. -/
def watcherRun (w : RunWatcher) (newValue : JsVal) : RunWatcher :=
  if w.active then
    if !jsStrictEq newValue w.value || isObjectVal newValue || w.deep then
      { w with value := newValue, cbLog := w.cbLog ++ [(newValue, w.value)] }
    else
      w
  else
    w

/-- C6: for an active Watcher, `run()` invokes the change callback with
the new and old value (and stores the new value) exactly when the new
value differs from the previous one by identity, or is an object/array,
or the Watcher tracks deeply; in particular an object-valued result fires
the callback even when it is the identical reference. -/
theorem watcherRun_fires_iff (w : RunWatcher) (v : JsVal) (h : w.active = true) :
    ((jsStrictEq v w.value = false ∨ isObjectVal v = true ∨ w.deep = true) →
      watcherRun w v = { w with value := v, cbLog := w.cbLog ++ [(v, w.value)] }) ∧
    (¬ (jsStrictEq v w.value = false ∨ isObjectVal v = true ∨ w.deep = true) →
      watcherRun w v = w) ∧
    (isObjectVal v = true →
      (watcherRun w v).cbLog = w.cbLog ++ [(v, w.value)]) := by
  refine ⟨?_, ?_, ?_⟩
  · intro hc
    rcases hc with hc | hc | hc <;> simp [watcherRun, h, hc]
  · intro hc
    push_neg at hc
    obtain ⟨h1, h2, h3⟩ := hc
    have h1' : jsStrictEq v w.value = true := by
      cases hh : jsStrictEq v w.value
      · exact absurd hh h1
      · rfl
    have h2' : isObjectVal v = false := by
      cases hh : isObjectVal v
      · rfl
      · exact absurd hh h2
    have h3' : w.deep = false := by
      cases hh : w.deep
      · rfl
      · exact absurd hh h3
    simp [watcherRun, h, h1', h2', h3']
  · intro hc
    simp [watcherRun, h, hc]

/-- Closed instance of `watcherRun_fires_iff`: a Watcher whose
re-evaluation yields the identical object reference still fires its
callback, while an identical primitive does not. -/
theorem watcherRun_fires_iff_witness :
    (watcherRun ⟨true, false, JsVal.obj 9, []⟩ (JsVal.obj 9)).cbLog
      = [(JsVal.obj 9, JsVal.obj 9)] ∧
    watcherRun ⟨true, false, JsVal.num 4, []⟩ (JsVal.num 4) = ⟨true, false, JsVal.num 4, []⟩ := by
  constructor
  · exact (watcherRun_fires_iff ⟨true, false, JsVal.obj 9, []⟩ (JsVal.obj 9) rfl).2.2 (by decide)
  · exact (watcherRun_fires_iff ⟨true, false, JsVal.num 4, []⟩ (JsVal.num 4) rfl).2.1 (by decide)

/-! ### Watcher.get: evaluation-pointer discipline and evaluator errors -/

/-- Global state touched by `Watcher.get` (Watcher class, lines 121-149):
the global evaluation-pointer stack (dep.js `targetStack`; dep.js is not
under src/, so the stack itself is Modelled from the spec: a push/pop
stack of currently-evaluating Watcher ids), a count of errors reported
through `handleError` (the diagnostic channel; handleError's body is not
under src/ and is modelled as a counter), a count of `cleanupDeps`
invocations, and a count of `traverse` invocations (deep tracking). -/
structure GetState where
  targetStack : List Nat
  handled : Nat
  cleanups : Nat
  traversals : Nat
deriving DecidableEq, Repr

/-- Embedding of `Watcher.get`.  `getterRes` is the outcome of
`this.getter.call(vm, vm)`: `Except.ok v` when the evaluator returns `v`,
`Except.error e` when it throws `e`.  The function returns the outcome of
`get()` itself (an `Except.error` means the exception propagates to the
caller) together with the final global state; the `finally` block
(`traverse` when deep, then `popTarget()`, then `this.cleanupDeps()`)
runs on every path.  On a caught user-watcher error, `value` is still
`undefined` and is returned. -/
def watcherGet (wid : Nat) (user deep : Bool) (getterRes : Except Unit JsVal)
    (st : GetState) : Except Unit JsVal × GetState :=
  let st1 : GetState := { st with targetStack := wid :: st.targetStack }
  match getterRes with
  | Except.ok v =>
      let st2 := if deep then { st1 with traversals := st1.traversals + 1 } else st1
      (Except.ok v,
        { st2 with targetStack := st2.targetStack.tail, cleanups := st2.cleanups + 1 })
  | Except.error e =>
      if user then
        let st2 := { st1 with handled := st1.handled + 1 }
        let st3 := if deep then { st2 with traversals := st2.traversals + 1 } else st2
        (Except.ok JsVal.undef,
          { st3 with targetStack := st3.targetStack.tail, cleanups := st3.cleanups + 1 })
      else
        let st3 := if deep then { st1 with traversals := st1.traversals + 1 } else st1
        (Except.error e,
          { st3 with targetStack := st3.targetStack.tail, cleanups := st3.cleanups + 1 })

/-- C8: when the evaluator throws inside `get()`, a user-registered
Watcher has the exception caught and reported through the diagnostic
channel and `get()` returns normally (with `undefined`), while a
non-user (render) Watcher lets the exception propagate and reports
nothing. -/
theorem watcherGet_error_policy (wid : Nat) (deep : Bool) (e : Unit) (st : GetState) :
    ((watcherGet wid true deep (Except.error e) st).1 = Except.ok JsVal.undef ∧
      (watcherGet wid true deep (Except.error e) st).2.handled = st.handled + 1) ∧
    ((watcherGet wid false deep (Except.error e) st).1 = Except.error e ∧
      (watcherGet wid false deep (Except.error e) st).2.handled = st.handled) := by
  cases deep <;> simp [watcherGet]

/-- Closed instance of `watcherGet_error_policy` at a concrete state. -/
theorem watcherGet_error_policy_witness :
    (watcherGet 3 true false (Except.error ()) ⟨[], 0, 0, 0⟩).1 = Except.ok JsVal.undef ∧
    (watcherGet 3 false false (Except.error ()) ⟨[], 0, 0, 0⟩).1 = Except.error () := by
  exact ⟨(watcherGet_error_policy 3 false () ⟨[], 0, 0, 0⟩).1.1,
    (watcherGet_error_policy 3 false () ⟨[], 0, 0, 0⟩).2.1⟩

/-- C9: on every path through `get()` — evaluator returning or throwing,
user-registered or not — the evaluation-pointer stack is restored to its
pre-call state and `cleanupDeps` runs exactly once before `get()` exits. -/
theorem watcherGet_stack_restored (wid : Nat) (user deep : Bool)
    (res : Except Unit JsVal) (st : GetState) :
    (watcherGet wid user deep res st).2.targetStack = st.targetStack ∧
    (watcherGet wid user deep res st).2.cleanups = st.cleanups + 1 := by
  cases res <;> cases user <;> cases deep <;> simp [watcherGet]

/-! ### Array mutation-method interception (src/core/observer/array.js) -/

/-- The seven structural mutation methods patched by
src/core/observer/array.js `methodsToPatch`. -/
inductive ArrMethod where
  | push | pop | shift | unshift | splice | sort | reverse
deriving DecidableEq, Repr

/-- Return value of a native array method: a single value (push, pop,
shift, unshift return lengths or elements) or an array (splice returns
the removed elements; sort and reverse return the mutated array). -/
inductive RetVal where
  | val (v : JsVal)
  | list (l : List JsVal)
deriving DecidableEq, Repr

/-- ToInteger coercion as the modelled natives need it: numeric arguments
give their value, every other modelled value coerces to 0 (NaN and
undefined do in JavaScript; strings are not used as index arguments
here). -/
def toIntOrZero : JsVal → Int
  | JsVal.num n => n
  | _ => 0

/-- Clamp a relative index per the ECMAScript splice rules: negative
indices count from the end, the result lies in `[0, len]`. -/
def clampIndex (len : Nat) (rel : Int) : Nat :=
  if rel < 0 then ((len : Int) + rel).toNat else min rel.toNat len

/-- Normalised `(actualStart, actualDeleteCount, items)` for
`Array.prototype.splice` called with `args`: with no arguments nothing is
deleted; with only a start, everything from the start is deleted;
otherwise the delete count is clamped to `[0, len - actualStart]`. -/
def spliceNorm (len : Nat) (args : List JsVal) : Nat × Nat × List JsVal :=
  match args with
  | [] => (0, 0, [])
  | [s] => let st := clampIndex len (toIntOrZero s); (st, len - st, [])
  | s :: d :: items =>
      let st := clampIndex len (toIntOrZero s)
      let dc := min (max (toIntOrZero d) 0).toNat (len - st)
      (st, dc, items)

/-- Behaviour of the native `Array.prototype` methods the wrapper
delegates to (`original.apply(this, args)`).  These natives are part of
the JavaScript runtime, not of this repository; they are modelled here by
their ECMAScript list semantics.  `cmp` stands for the comparator closure
passed to `sort` (a consistent comparator; modelled as a parameter since
the argument list holds only data values).  Each case returns the mutated
array and the native's return value. -/
def arrayOriginal (cmp : JsVal → JsVal → Bool) :
    ArrMethod → List JsVal → List JsVal → List JsVal × RetVal
  | ArrMethod.push, a, args => (a ++ args, RetVal.val (JsVal.num ((a.length + args.length : Nat) : Int)))
  | ArrMethod.pop, a, _ => (a.dropLast, RetVal.val ((a.getLast?).getD JsVal.undef))
  | ArrMethod.shift, a, _ => (a.tail, RetVal.val ((a.head?).getD JsVal.undef))
  | ArrMethod.unshift, a, args => (args ++ a, RetVal.val (JsVal.num ((args.length + a.length : Nat) : Int)))
  | ArrMethod.splice, a, args =>
      let (st, dc, items) := spliceNorm a.length args
      (a.take st ++ items ++ a.drop (st + dc), RetVal.list ((a.drop st).take dc))
  | ArrMethod.sort, a, _ => (a.insertionSort (fun x y => cmp x y = true), RetVal.list (a.insertionSort (fun x y => cmp x y = true)))
  | ArrMethod.reverse, a, _ => (a.reverse, RetVal.list a.reverse)

/-- Events emitted by the wrapped mutator on the observed array's
Observer: `observed v` for each element handed to `ob.observeArray`
(which calls `observe` on every inserted element), and `notified` for
`ob.dep.notify()`. -/
inductive ArrEvent where
  | observed (v : JsVal)
  | notified
deriving DecidableEq, Repr

/-- State of one observed array: its elements and the event log of its
Observer. -/
structure ArrState where
  arr : List JsVal
  events : List ArrEvent
deriving DecidableEq, Repr

/-- The `switch (method)` of the mutator: newly-inserted elements are the
arguments for push/unshift, the items after the first two arguments for
splice, and `undefined` (no observe call at all) for the rest. -/
def insertedArgs : ArrMethod → List JsVal → Option (List JsVal)
  | ArrMethod.push, args => some args
  | ArrMethod.unshift, args => some args
  | ArrMethod.splice, args => some (args.drop 2)
  | _, _ => none

/-- Embedding of the `mutator` wrapper installed by array.js lines 39-62:
run the original method, compute `inserted` from the method and the
arguments, `ob.observeArray(inserted)` when `inserted` is defined, then
`ob.dep.notify()`, and return the original's result. -/
def arrayMutator (cmp : JsVal → JsVal → Bool) (m : ArrMethod)
    (st : ArrState) (args : List JsVal) : ArrState × RetVal :=
  let resPair := arrayOriginal cmp m st.arr args
  let obsEvents := match insertedArgs m args with
    | some l => l.map ArrEvent.observed
    | none => []
  ({ arr := resPair.1, events := st.events ++ obsEvents ++ [ArrEvent.notified] },
    resPair.2)

/-- List of observe events the wrapper emits for a call. -/
def observeEventsOf (m : ArrMethod) (args : List JsVal) : List ArrEvent :=
  ((insertedArgs m args).getD []).map ArrEvent.observed

/-- C7: every wrapped structural mutation returns exactly the native
method's result and leaves the array exactly as the native would; then
the Observer sees, in order, one `observed` event per newly-inserted
element (the arguments for push/unshift, the items after the first two
splice arguments, none for the others) followed by exactly one `notified`
event — for every call, including ones inserting nothing. -/
theorem arrayMutator_spec (cmp : JsVal → JsVal → Bool) (m : ArrMethod)
    (st : ArrState) (args : List JsVal) :
    (arrayMutator cmp m st args).1.arr = (arrayOriginal cmp m st.arr args).1 ∧
    (arrayMutator cmp m st args).2 = (arrayOriginal cmp m st.arr args).2 ∧
    (arrayMutator cmp m st args).1.events
      = st.events ++ observeEventsOf m args ++ [ArrEvent.notified] ∧
    ((arrayMutator cmp m st args).1.events.count ArrEvent.notified)
      = st.events.count ArrEvent.notified + 1 := by
  refine ⟨rfl, rfl, ?_, ?_⟩
  · cases m <;> simp [arrayMutator, observeEventsOf, insertedArgs]
  · have hobs : ∀ l : List JsVal,
        (l.map ArrEvent.observed).count ArrEvent.notified = 0 := by
      intro l
      induction l with
      | nil => rfl
      | cons x xs ih => simp [List.count_cons, ih]
    have hdrop : ∀ (l : List JsVal) (n : Nat),
        ((l.map ArrEvent.observed).drop n).count ArrEvent.notified = 0 := by
      intro l n
      refine List.count_eq_zero.mpr ?_
      intro h
      have h2 := List.mem_of_mem_drop h
      simp at h2
    cases m <;>
      simp [arrayMutator, insertedArgs, List.count_append, hobs, hdrop]

/-- Closed instance of `arrayMutator_spec`: a concrete `splice(1, 1, x)`
on `[a, b]` removes `b`, inserts the object `x`, observes exactly `x`,
then notifies once; a concrete `pop` inserts nothing and still notifies
exactly once. -/
theorem arrayMutator_spec_witness :
    arrayMutator (fun _ _ => true) ArrMethod.splice
        ⟨[JsVal.num 10, JsVal.num 20], []⟩
        [JsVal.num 1, JsVal.num 1, JsVal.obj 7]
      = (⟨[JsVal.num 10, JsVal.obj 7],
          [ArrEvent.observed (JsVal.obj 7), ArrEvent.notified]⟩,
         RetVal.list [JsVal.num 20]) ∧
    arrayMutator (fun _ _ => true) ArrMethod.pop ⟨[JsVal.num 10], []⟩ []
      = (⟨[], [ArrEvent.notified]⟩, RetVal.val (JsVal.num 10)) := by
  have h1 := arrayMutator_spec (fun _ _ => true) ArrMethod.splice
    ⟨[JsVal.num 10, JsVal.num 20], []⟩ [JsVal.num 1, JsVal.num 1, JsVal.obj 7]
  have h2 := arrayMutator_spec (fun _ _ => true) ArrMethod.pop ⟨[JsVal.num 10], []⟩ []
  exact ⟨by decide, by decide⟩

/-! ### Vue.set on a never-observed target (src/core/observer/index.js `set`) -/

/-- Observer state attached to a target as `__ob__`: the `vmCount` root
counter and the count of `ob.dep.notify()` calls. -/
structure ObState where
  vmCount : Nat
  notifyCount : Nat
deriving DecidableEq, Repr

/-- A plain-object target of `set`: its own enumerable fields, the list
of keys that have been given reactive accessors by `defineReactive`, the
optional attached Observer, and the `_isVue` flag. -/
structure JsObject where
  fields : List (String × JsVal)
  reactiveKeys : List String
  ob : Option ObState
  isVue : Bool
deriving DecidableEq, Repr

/-- Plain JavaScript assignment `target[key] = val` on the field map:
replace the binding if the key exists, append it otherwise. -/
def fieldsSet : List (String × JsVal) → String → JsVal → List (String × JsVal)
  | [], k, v => [(k, v)]
  | (k', v') :: t, k, v =>
      if k' = k then (k', v) :: t else (k', v') :: fieldsSet t k v

/-- The `key in target` test, restricted to own fields (the claim's keys
are plain data keys, not `Object.prototype` members). -/
def hasKeyObj (o : JsObject) (k : String) : Bool := (o.fields.lookup k).isSome

/-- Definition following the specification's words for C10: what a plain
assignment `target[key] = value` does to the target — used as the
reference point the `set` path is compared against. -/
def plainAssign (o : JsObject) (k : String) (v : JsVal) : JsObject :=
  { o with fields := fieldsSet o.fields k v }

/-- Embedding of `set(target, key, value)` (src/core/observer/index.js
lines 242-276) for plain-object targets.  The
`Array.isArray(target) && isValidArrayIndex(key)` branch is never taken
for an object target and is therefore outside this definition; the
remaining branches follow the source in order: existing own key → plain
assignment; Vue instance or root `$data` (`ob.vmCount` truthy) → warn and
return; no Observer → plain assignment; otherwise `defineReactive` on the
new key and `ob.dep.notify()`. -/
def vueSet (target : JsObject) (key : String) (val : JsVal) : JsObject × JsVal :=
  if hasKeyObj target key then
    ({ target with fields := fieldsSet target.fields key val }, val)
  else if target.isVue || (match target.ob with
      | some ob => ob.vmCount ≠ 0
      | none => false) then
    (target, val)
  else
    match target.ob with
    | none => ({ target with fields := fieldsSet target.fields key val }, val)
    | some ob =>
        ({ target with
            fields := fieldsSet target.fields key val
            reactiveKeys := target.reactiveKeys ++ [key]
            ob := some { ob with notifyCount := ob.notifyCount + 1 } }, val)

/-- C10: on a target that has never been observed (no `__ob__`) and is
not a Vue instance, `set` with a non-existing key mutates the target
exactly as a plain assignment would and returns the value, defining no
reactive accessor and notifying no Dep. -/
theorem vueSet_unobserved (target : JsObject) (key : String) (val : JsVal)
    (hob : target.ob = none) (hvue : target.isVue = false)
    (hkey : hasKeyObj target key = false) :
    vueSet target key val = (plainAssign target key val, val) ∧
    (vueSet target key val).1.reactiveKeys = target.reactiveKeys ∧
    (vueSet target key val).1.ob = none := by
  have h : vueSet target key val = (plainAssign target key val, val) := by
    simp [vueSet, hkey, hvue, hob, plainAssign]
  refine ⟨h, ?_, ?_⟩
  · rw [h]; rfl
  · rw [h]; exact hob

/-- Closed instance of `vueSet_unobserved` on a concrete unobserved
object. -/
theorem vueSet_unobserved_witness :
    vueSet ⟨[("a", JsVal.num 1)], [], none, false⟩ "b" (JsVal.num 2)
      = (⟨[("a", JsVal.num 1), ("b", JsVal.num 2)], [], none, false⟩, JsVal.num 2) := by
  have h := vueSet_unobserved ⟨[("a", JsVal.num 1)], [], none, false⟩ "b" (JsVal.num 2)
    rfl rfl (by decide)
  rw [h.1]
  decide

/-! ### Watcher dependency bookkeeping (addDep / cleanupDeps) -/

/-- Dependency-tracking state of one Watcher together with the
subscriber lists of every Dep: `deps`/`depIds` hold the Deps (by their
ids) of the previous evaluation, `newDeps`/`newDepIds` accumulate the
current one, and `subs d` is Dep `d`'s subscriber list of Watcher ids
(`Dep.subs`; the Dep class lives in dep.js, not under src/, and its
`addSub`/`removeSub` are Modelled from the spec: an ordered subscriber
list with append and single-occurrence removal). -/
structure WDeps where
  deps : List Nat
  newDeps : List Nat
  depIds : List Nat
  newDepIds : List Nat
  subs : Nat → List Nat

/-- Dep.addSub: append the watcher to the dep's subscriber list. -/
def depAddSub (subs : Nat → List Nat) (d wid : Nat) : Nat → List Nat :=
  fun k => if k = d then subs d ++ [wid] else subs k

/-- Dep.removeSub: remove the watcher from the dep's subscriber list. -/
def depRemoveSub (subs : Nat → List Nat) (d wid : Nat) : Nat → List Nat :=
  fun k => if k = d then (subs d).erase wid else subs k

/-- Embedding of `Watcher.addDep` (Watcher class, lines 154-164): record
the Dep in the newly-used set unless already there, and subscribe the
watcher to the Dep only if it was not subscribed in the previous
evaluation either. -/
def addDep (wid : Nat) (st : WDeps) (d : Nat) : WDeps :=
  if d ∈ st.newDepIds then st
  else
    let st1 := { st with newDepIds := st.newDepIds ++ [d], newDeps := st.newDeps ++ [d] }
    if d ∈ st.depIds then st1
    else { st1 with subs := depAddSub st1.subs d wid }

/-- Embedding of `Watcher.cleanupDeps` (Watcher class, lines 170-188):
unsubscribe from every previously-used Dep that the current evaluation
did not reach (iterating `deps` from the end, as the source's `while
(i--)` does), then swap the dep sets: the newly-used sets become current
and the new sets are cleared. -/
def cleanupDeps (wid : Nat) (st : WDeps) : WDeps :=
  let subs2 := st.deps.foldr
    (fun d s => if d ∈ st.newDepIds then s else depRemoveSub s d wid) st.subs
  { deps := st.newDeps
    newDeps := []
    depIds := st.newDepIds
    newDepIds := []
    subs := subs2 }

/-- One completed evaluation of the watcher: every Dep whose `depend()`
was reached calls `addDep` on the current target in order, and the
`finally` block of `get()` ends with `cleanupDeps`. -/
def watcherEval (wid : Nat) (st : WDeps) (reached : List Nat) : WDeps :=
  cleanupDeps wid (reached.foldl (addDep wid) st)

/-- Well-formedness at an evaluation boundary: the new sets are empty,
`depIds` mirrors `deps`, `deps` has no duplicates, and the watcher is
subscribed to exactly the Deps of its set, at most once each. -/
def WFdeps (wid : Nat) (st : WDeps) : Prop :=
  st.newDeps = [] ∧ st.newDepIds = [] ∧
  (∀ d, d ∈ st.depIds ↔ d ∈ st.deps) ∧
  st.deps.Nodup ∧
  (∀ d, wid ∈ st.subs d ↔ d ∈ st.depIds) ∧
  (∀ d, (st.subs d).count wid ≤ 1)

/-- Invariant of the `addDep` accumulation phase, relative to the
boundary state's fields `deps0`, `depIds0` and the prefix
`processed` of reached Deps. -/
def FoldInv (wid : Nat) (deps0 depIds0 : List Nat)
    (cur : WDeps) (processed : List Nat) : Prop :=
  cur.deps = deps0 ∧ cur.depIds = depIds0 ∧
  (∀ d, d ∈ cur.newDepIds ↔ d ∈ processed) ∧
  cur.newDeps = cur.newDepIds ∧ cur.newDepIds.Nodup ∧
  (∀ d, wid ∈ cur.subs d ↔ (d ∈ depIds0 ∨ d ∈ processed)) ∧
  (∀ d, (cur.subs d).count wid ≤ 1)

theorem addDep_preserves_inv (wid : Nat) (deps0 depIds0 : List Nat)
    (cur : WDeps) (processed : List Nat) (d : Nat)
    (h : FoldInv wid deps0 depIds0 cur processed) :
    FoldInv wid deps0 depIds0 (addDep wid cur d) (processed ++ [d]) := by
  obtain ⟨h1, h2, h3, h4, h5, h6, h7⟩ := h
  by_cases hd : d ∈ cur.newDepIds
  · have hdp : d ∈ processed := (h3 d).mp hd
    have heq : addDep wid cur d = cur := by
      simp [addDep, hd]
    rw [heq]
    refine ⟨h1, h2, ?_, h4, h5, ?_, h7⟩
    · intro x
      rw [List.mem_append, List.mem_singleton, h3 x]
      constructor
      · exact Or.inl
      · rintro (hx | hx)
        · exact hx
        · subst hx; exact hdp
    · intro x
      rw [List.mem_append, List.mem_singleton, h6 x]
      constructor
      · rintro (hx | hx)
        · exact Or.inl hx
        · exact Or.inr (Or.inl hx)
      · rintro (hx | hx | hx)
        · exact Or.inl hx
        · exact Or.inr hx
        · subst hx; exact Or.inr hdp
  · have hdp : d ∉ processed := fun hp => hd ((h3 d).mpr hp)
    have hmem : ∀ x, x ∈ cur.newDepIds ++ [d] ↔ x ∈ processed ++ [d] := by
      intro x
      simp only [List.mem_append, List.mem_singleton, h3 x]
    have hnd : (cur.newDepIds ++ [d]).Nodup := by
      rw [List.nodup_append]
      exact ⟨h5, List.nodup_singleton d, by
        intro x hx hx'
        rw [List.mem_singleton] at hx'
        subst hx'
        exact hd hx⟩
    by_cases hdi : d ∈ cur.depIds
    · have heq : addDep wid cur d
          = { cur with
                newDepIds := cur.newDepIds ++ [d]
                newDeps := cur.newDeps ++ [d] } := by
        simp only [addDep, if_neg hd, if_pos hdi]
      rw [heq]
      refine ⟨h1, h2, hmem, by rw [h4], hnd, ?_, h7⟩
      · intro x
        rw [List.mem_append, List.mem_singleton, h6 x]
        rw [h2] at hdi
        constructor
        · rintro (hx | hx)
          · exact Or.inl hx
          · exact Or.inr (Or.inl hx)
        · rintro (hx | hx | hx)
          · exact Or.inl hx
          · exact Or.inr hx
          · subst hx; exact Or.inl hdi
    · have heq : addDep wid cur d
          = { cur with
                newDepIds := cur.newDepIds ++ [d]
                newDeps := cur.newDeps ++ [d]
                subs := depAddSub cur.subs d wid } := by
        simp only [addDep, if_neg hd, if_neg hdi]
      rw [heq]
      have hno : wid ∉ cur.subs d := by
        rw [h6 d]
        rw [h2] at hdi
        rintro (hx | hx)
        · exact hdi hx
        · exact hdp hx
      refine ⟨h1, h2, hmem, by rw [h4], hnd, ?_, ?_⟩
      · intro x
        by_cases hx : x = d
        · subst hx
          constructor
          · intro _
            exact Or.inr (List.mem_append_right _ (List.mem_singleton_self x))
          · intro _
            show wid ∈ depAddSub cur.subs x wid x
            rw [depAddSub]
            simp
        · show wid ∈ depAddSub cur.subs d wid x ↔ _
          rw [depAddSub]
          simp only [if_neg hx]
          rw [List.mem_append, List.mem_singleton, h6 x]
          constructor
          · rintro (h | h)
            · exact Or.inl h
            · exact Or.inr (Or.inl h)
          · rintro (h | h | h)
            · exact Or.inl h
            · exact Or.inr h
            · exact absurd h hx
      · intro x
        by_cases hx : x = d
        · subst hx
          show ((depAddSub cur.subs x wid) x).count wid ≤ 1
          simp [depAddSub, List.count_append, List.count_eq_zero.mpr hno]
        · show ((depAddSub cur.subs d wid) x).count wid ≤ 1
          rw [depAddSub]
          simp only [if_neg hx]
          exact h7 x

theorem foldl_addDep_inv (wid : Nat) (deps0 depIds0 : List Nat) :
    ∀ (reached : List Nat) (cur : WDeps) (processed : List Nat),
      FoldInv wid deps0 depIds0 cur processed →
      FoldInv wid deps0 depIds0 (reached.foldl (addDep wid) cur)
        (processed ++ reached) := by
  intro reached
  induction reached with
  | nil => intro cur processed h; simpa using h
  | cons r rs ih =>
      intro cur processed h
      have h2 := addDep_preserves_inv wid deps0 depIds0 cur processed r h
      have h3 := ih (addDep wid cur r) (processed ++ [r]) h2
      simpa using h3

/-- Effect of the removal loop of `cleanupDeps` on the subscriber map:
for a duplicate-free dep list, each stale dep's list has the watcher
erased and every other list is untouched. -/
theorem foldr_removeSub_eq (wid : Nat) (nids : List Nat) :
    ∀ (l : List Nat) (subs : Nat → List Nat), l.Nodup →
      ∀ k, (l.foldr (fun d s => if d ∈ nids then s else depRemoveSub s d wid) subs) k
        = if k ∈ l ∧ k ∉ nids then (subs k).erase wid else subs k := by
  intro l
  induction l with
  | nil => intro subs _ k; simp
  | cons d t ih =>
      intro subs hnd k
      have hdt : d ∉ t := (List.nodup_cons.mp hnd).1
      have hnt : t.Nodup := (List.nodup_cons.mp hnd).2
      have hrec := ih subs hnt
      by_cases hdn : d ∈ nids
      · simp only [List.foldr_cons, if_pos hdn]
        rw [hrec k]
        by_cases hk : k = d
        · subst hk
          simp [hdt, hdn]
        · by_cases hkt : k ∈ t ∧ k ∉ nids
          · simp [hkt, List.mem_cons, hkt.1]
          · rw [if_neg hkt]
            rw [if_neg]
            rintro ⟨hk1, hk2⟩
            rcases List.mem_cons.mp hk1 with hk1 | hk1
            · exact hk hk1
            · exact hkt ⟨hk1, hk2⟩
      · simp only [List.foldr_cons, if_neg hdn]
        by_cases hk : k = d
        · subst hk
          rw [depRemoveSub]
          simp only [if_pos rfl]
          rw [hrec k]
          simp [hdt, hdn]
        · rw [depRemoveSub]
          simp only [if_neg hk]
          rw [hrec k]
          by_cases hkt : k ∈ t ∧ k ∉ nids
          · simp [hkt, List.mem_cons, hkt.1]
          · rw [if_neg hkt]
            rw [if_neg]
            rintro ⟨hk1, hk2⟩
            rcases List.mem_cons.mp hk1 with hk1 | hk1
            · exact hk hk1
            · exact hkt ⟨hk1, hk2⟩

/-- C2: after any completed evaluation, a Dep is in the Watcher's
dependency set exactly when its `depend()` was reached during that
evaluation; every Dep of the previous evaluation that was not reached
has the Watcher removed from its subscribers; the Watcher is subscribed
to a Dep at most once and its dep list holds no duplicates; and
well-formedness is re-established for the next evaluation. -/
theorem watcher_deps_exact (wid : Nat) (st : WDeps) (reached : List Nat)
    (h : WFdeps wid st) :
    (∀ d, d ∈ (watcherEval wid st reached).deps ↔ d ∈ reached) ∧
    (∀ d, d ∈ (watcherEval wid st reached).depIds ↔ d ∈ reached) ∧
    (∀ d, wid ∈ (watcherEval wid st reached).subs d ↔ d ∈ reached) ∧
    (watcherEval wid st reached).deps.Nodup ∧
    (∀ d, ((watcherEval wid st reached).subs d).count wid ≤ 1) ∧
    WFdeps wid (watcherEval wid st reached) := by
  obtain ⟨w1, w2, w3, w4, w5, w6⟩ := h
  have hbase : FoldInv wid st.deps st.depIds st [] := by
    refine ⟨rfl, rfl, ?_, ?_, ?_, ?_, w6⟩
    · intro d; rw [w2]
    · rw [w1, w2]
    · rw [w2]; exact List.nodup_nil
    · intro d; rw [w5 d]; simp
  have hfold := foldl_addDep_inv wid st.deps st.depIds reached st [] hbase
  simp only [List.nil_append] at hfold
  obtain ⟨f1, f2, f3, f4, f5, f6, f7⟩ := hfold
  set m := reached.foldl (addDep wid) st with hm
  have hsubs := foldr_removeSub_eq wid m.newDepIds m.deps m.subs (f1 ▸ w4)
  have hfin : ∀ d, wid ∈ (watcherEval wid st reached).subs d ↔ d ∈ reached := by
    intro d
    show wid ∈ (cleanupDeps wid m).subs d ↔ d ∈ reached
    have : (cleanupDeps wid m).subs d
        = if d ∈ m.deps ∧ d ∉ m.newDepIds then (m.subs d).erase wid else m.subs d := by
      exact hsubs d
    rw [this]
    by_cases hc : d ∈ m.deps ∧ d ∉ m.newDepIds
    · rw [if_pos hc]
      have hle := f7 d
      constructor
      · intro habs
        have := List.count_pos_iff.mpr habs
        rw [List.count_erase_self] at this
        omega
      · intro hr
        exact absurd ((f3 d).mpr hr) hc.2
    · rw [if_neg hc]
      rw [f6 d]
      constructor
      · rintro (hd | hd)
        · by_cases hr : d ∈ reached
          · exact hr
          · exfalso
            have hdd : d ∈ m.deps := by
              rw [f1]
              exact (w3 d).mp hd
            have hnn : d ∉ m.newDepIds := fun hx => hr ((f3 d).mp hx)
            exact hc ⟨hdd, hnn⟩
        · exact hd
      · intro hr; exact Or.inr hr
  refine ⟨?_, ?_, hfin, ?_, ?_, ?_⟩
  · intro d
    show d ∈ (cleanupDeps wid m).deps ↔ d ∈ reached
    have : (cleanupDeps wid m).deps = m.newDeps := rfl
    rw [this, f4]
    exact f3 d
  · intro d
    show d ∈ (cleanupDeps wid m).depIds ↔ d ∈ reached
    exact f3 d
  · show (cleanupDeps wid m).deps.Nodup
    have : (cleanupDeps wid m).deps = m.newDeps := rfl
    rw [this, f4]
    exact f5
  · intro d
    show ((cleanupDeps wid m).subs d).count wid ≤ 1
    have hb : (cleanupDeps wid m).subs d
        = if d ∈ m.deps ∧ d ∉ m.newDepIds then (m.subs d).erase wid else m.subs d :=
      hsubs d
    rw [hb]
    by_cases hc : d ∈ m.deps ∧ d ∉ m.newDepIds
    · rw [if_pos hc]
      calc ((m.subs d).erase wid).count wid ≤ (m.subs d).count wid :=
            (List.erase_sublist wid (m.subs d)).count_le wid
        _ ≤ 1 := f7 d
    · rw [if_neg hc]; exact f7 d
  · refine ⟨rfl, rfl, ?_, ?_, ?_, ?_⟩
    · intro d
      show d ∈ m.newDepIds ↔ d ∈ m.newDeps
      rw [f4]
    · show m.newDeps.Nodup
      rw [f4]; exact f5
    · intro d
      rw [hfin d]
      show d ∈ reached ↔ d ∈ m.newDepIds
      exact (f3 d).symm
    · intro d
      show ((cleanupDeps wid m).subs d).count wid ≤ 1
      have hb : (cleanupDeps wid m).subs d
          = if d ∈ m.deps ∧ d ∉ m.newDepIds then (m.subs d).erase wid else m.subs d :=
        hsubs d
      rw [hb]
      by_cases hc : d ∈ m.deps ∧ d ∉ m.newDepIds
      · rw [if_pos hc]
        calc ((m.subs d).erase wid).count wid ≤ (m.subs d).count wid :=
              (List.erase_sublist wid (m.subs d)).count_le wid
          _ ≤ 1 := f7 d
      · rw [if_neg hc]; exact f7 d

/-- Concrete boundary state for the C2 witness: the previous evaluation
read Deps 1 and 2, so Watcher 7 is subscribed to exactly those. -/
def exDeps : WDeps :=
  { deps := [1, 2]
    newDeps := []
    depIds := [1, 2]
    newDepIds := []
    subs := fun d => if d = 1 ∨ d = 2 then [7] else [] }

theorem exDeps_wf : WFdeps 7 exDeps := by
  refine ⟨rfl, rfl, ?_, ?_, ?_, ?_⟩
  · intro d; constructor <;> exact id
  · decide
  · intro d
    by_cases h1 : d = 1
    · subst h1; simp [exDeps]
    · by_cases h2 : d = 2
      · subst h2; simp [exDeps]
      · simp [exDeps, h1, h2]
  · intro d
    by_cases h1 : d = 1 ∨ d = 2 <;> simp [exDeps, h1]

/-- Closed instance of `watcher_deps_exact`: re-evaluating while reading
Deps 2 and 3 (a branch flip away from Dep 1) prunes the stale Dep 1
subscription, keeps 2, adds 3. -/
theorem watcher_deps_exact_witness :
    (2 ∈ (watcherEval 7 exDeps [2, 3]).deps ∧ 3 ∈ (watcherEval 7 exDeps [2, 3]).deps ∧
      ¬ 1 ∈ (watcherEval 7 exDeps [2, 3]).deps) ∧
    ¬ 7 ∈ (watcherEval 7 exDeps [2, 3]).subs 1 ∧
    7 ∈ (watcherEval 7 exDeps [2, 3]).subs 3 := by
  have h := watcher_deps_exact 7 exDeps [2, 3] exDeps_wf
  refine ⟨⟨(h.1 2).mpr (by decide), (h.1 3).mpr (by decide), ?_⟩, ?_, (h.2.2.1 3).mpr (by decide)⟩
  · intro hx
    have := (h.1 1).mp hx
    simp at this
  · intro hx
    have := (h.2.2.1 1).mp hx
    simp at this

/-! ### Scheduler (src/core/observer scheduler: queueWatcher / flushSchedulerQueue) -/

/-- The fixed per-flush re-schedule threshold (`MAX_UPDATE_COUNT`). -/
def MAX_UPDATE_COUNT : Nat := 100

/-- Scheduler state.  Watchers are represented by their ids (the only
attribute the scheduler reads besides the run effect): `queue` is the
watcher queue, `index` the flush cursor, `has` the pending-membership
set (`has[id] = true` entries), `circular` the dev-mode re-schedule
counters, `flushing` the flush-phase flag; `runLog` records each
completed `watcher.run()` in order and `warned` each watcher reported
by the "infinite update loop" diagnostic. -/
structure SchedState where
  queue : List Nat
  index : Nat
  has : List Nat
  circular : List (Nat × Nat)
  flushing : Bool
  runLog : List Nat
  warned : List Nat
deriving DecidableEq, Repr

/-- Lookup in the `circular` counter map (`circular[id] || 0`). -/
def circGet (c : List (Nat × Nat)) (i : Nat) : Nat := (c.lookup i).getD 0

/-- Update of the `circular` counter map. -/
def circSet (c : List (Nat × Nat)) (i v : Nat) : List (Nat × Nat) :=
  (i, v) :: c.eraseP (fun p => p.1 == i)

/-- The descending scan of `queueWatcher`'s splice branch:
`let i = queue.length - 1; while (i > index && queue[i].id > watcher.id) i--`,
returning the final `i`.  The recursion argument is the running `i`. -/
def spliceScanAux (q : List Nat) (idx wid : Nat) : Nat → Nat
  | 0 => 0
  | i+1 => if idx < i+1 ∧ wid < q.getD (i+1) 0 then spliceScanAux q idx wid i else i+1

/-- Embedding of `queueWatcher(watcher)` (scheduler, lines 483-513; the
`waiting`/nextTick arming is outside the single-flush model): skip a
watcher already pending; otherwise mark it pending and either push it to
the queue (not flushing) or splice it at the scan position `i + 1`
(flushing).  The empty-queue splice case is JavaScript's `i = -1`,
inserting at position 0. -/
def queueWatcher (st : SchedState) (wid : Nat) : SchedState :=
  if wid ∈ st.has then st
  else
    let st1 := { st with has := wid :: st.has }
    if st1.flushing = false then { st1 with queue := st1.queue ++ [wid] }
    else if st1.queue.isEmpty then { st1 with queue := [wid] }
    else
      let p := spliceScanAux st1.queue st1.index wid (st1.queue.length - 1)
      { st1 with queue := st1.queue.insertIdx (p+1) wid }

/-- The id the flush cursor points at (`queue[index].id`). -/
def curWid (st : SchedState) : Nat := st.queue.getD st.index 0

/-- Effect of `watcher.run()` on the scheduler state: the watcher's
update propagation calls `queueWatcher` for each watcher in `env wid`
(the re-schedule behaviour of watcher `wid`, abstracting its callback's
reactive writes), after `has[id] = null` has cleared its pending flag. -/
def runTriggers (env : Nat → List Nat) (st : SchedState) : SchedState :=
  (env (curWid st)).foldl queueWatcher { st with has := st.has.erase (curWid st) }

/-- One iteration of the flush loop body (scheduler, lines 396-419):
clear the pending flag, run the watcher (recording it in `runLog`), and
perform the dev-mode circular-update check; the returned Bool is true
when `circular[id] > MAX_UPDATE_COUNT` fired the diagnostic and the
`break`. -/
def runOne (env : Nat → List Nat) (st : SchedState) : SchedState × Bool :=
  let wid := curWid st
  let st2 := runTriggers env st
  let st3 := { st2 with runLog := st2.runLog ++ [wid] }
  if wid ∈ st3.has then
    let c := circGet st3.circular wid + 1
    let st4 := { st3 with circular := circSet st3.circular wid c }
    if MAX_UPDATE_COUNT < c then ({ st4 with warned := st4.warned ++ [wid] }, true)
    else (st4, false)
  else (st3, false)

/-- The flush `for` loop (`for (index = 0; index < queue.length; index++)`)
with enough fuel; the loop exits early on the circular-update `break`. -/
def flushLoop (env : Nat → List Nat) : Nat → SchedState → SchedState
  | 0, st => st
  | fuel+1, st =>
    if st.index < st.queue.length then
      match runOne env st with
      | (st', true) => st'
      | (st', false) => flushLoop env fuel { st' with index := st'.index + 1 }
    else st

/-- Entry of `flushSchedulerQueue`: set the flushing flag and sort the
queue ascending by id. -/
def startFlush (st : SchedState) : SchedState :=
  { st with flushing := true, queue := st.queue.insertionSort (· ≤ ·), index := 0 }

/-- `resetSchedulerState` (scheduler, lines 364-371). -/
def resetSchedulerState (st : SchedState) : SchedState :=
  { st with index := 0, queue := [], has := [], circular := [], flushing := false }

/-- Embedding of one `flushSchedulerQueue` call: sort, run the loop,
reset the scheduler state (the post queues and hooks are outside the
model; `runLog` and `warned` persist as the observable outcome). -/
def flushSchedulerQueue (env : Nat → List Nat) (fuel : Nat) (st : SchedState) : SchedState :=
  resetSchedulerState (flushLoop env fuel (startFlush st))

/-- The watchers still awaiting their run at a loop boundary: the queue
from the cursor on. -/
def Pending (st : SchedState) : List Nat := st.queue.drop st.index

/-- The scheduler's initial idle state. -/
def emptySched : SchedState := ⟨[], 0, [], [], false, [], []⟩

/-- External `queueWatcher` calls arriving while idle (the push branch),
building the queue a flush will process. -/
def schedInit (ws : List Nat) : SchedState := ws.foldl queueWatcher emptySched

theorem queueWatcher_preserves (st : SchedState) (w : Nat) :
    (queueWatcher st w).index = st.index ∧
    (queueWatcher st w).flushing = st.flushing ∧
    (queueWatcher st w).runLog = st.runLog ∧
    (queueWatcher st w).warned = st.warned ∧
    (queueWatcher st w).circular = st.circular := by
  simp only [queueWatcher]
  split
  · exact ⟨rfl, rfl, rfl, rfl, rfl⟩
  · split
    · exact ⟨rfl, rfl, rfl, rfl, rfl⟩
    · split
      · exact ⟨rfl, rfl, rfl, rfl, rfl⟩
      · exact ⟨rfl, rfl, rfl, rfl, rfl⟩

theorem queueWatcher_queue_length (st : SchedState) (w : Nat) :
    st.queue.length ≤ (queueWatcher st w).queue.length := by
  simp only [queueWatcher]
  split
  · exact Nat.le_refl _
  · split
    · simp
    · split
      · rename_i h1 h2 h3
        have : st.queue = [] := List.isEmpty_iff.mp h3
        simp [this]
      · exact List.length_le_length_insertIdx st.queue w
          (spliceScanAux st.queue st.index w (st.queue.length - 1) + 1)

theorem spliceScanAux_le_self (q : List Nat) (idx wid : Nat) :
    ∀ i, spliceScanAux q idx wid i ≤ i := by
  intro i
  induction i with
  | zero => exact Nat.le_refl 0
  | succ i ih =>
      simp only [spliceScanAux]
      split
      · exact ih.trans (Nat.le_succ i)
      · exact Nat.le_refl _

theorem spliceScanAux_ge_idx (q : List Nat) (idx wid : Nat) :
    ∀ i, idx ≤ i → idx ≤ spliceScanAux q idx wid i := by
  intro i
  induction i with
  | zero => intro h; simpa [spliceScanAux] using h
  | succ i ih =>
      intro h
      simp only [spliceScanAux]
      split
      · rename_i hc
        exact ih (Nat.lt_succ_iff.mp hc.1)
      · exact h

theorem spliceScanAux_upper (q : List Nat) (idx wid : Nat) :
    ∀ i k, spliceScanAux q idx wid i < k → k ≤ i → wid < q.getD k 0 := by
  intro i
  induction i with
  | zero =>
      intro k h1 h2
      simp [spliceScanAux] at h1
      omega
  | succ i ih =>
      intro k h1 h2
      simp only [spliceScanAux] at h1
      by_cases hc : idx < i+1 ∧ wid < q.getD (i+1) 0
      · rw [if_pos hc] at h1
        by_cases hk : k ≤ i
        · exact ih k h1 hk
        · have hk2 : k = i + 1 := by omega
          subst hk2
          exact hc.2
      · rw [if_neg hc] at h1
        omega

theorem spliceScanAux_at (q : List Nat) (idx wid : Nat) :
    ∀ i, idx < spliceScanAux q idx wid i →
      q.getD (spliceScanAux q idx wid i) 0 ≤ wid := by
  intro i
  induction i with
  | zero =>
      intro h
      simp [spliceScanAux] at h
  | succ i ih =>
      intro h
      simp only [spliceScanAux] at h ⊢
      by_cases hc : idx < i+1 ∧ wid < q.getD (i+1) 0
      · rw [if_pos hc] at h ⊢
        exact ih h
      · rw [if_neg hc] at h ⊢
        push_neg at hc
        exact hc h

theorem insertIdx_eq_take_cons_drop (l : List Nat) (n : Nat) (a : Nat) (h : n ≤ l.length) :
    l.insertIdx n a = l.take n ++ a :: l.drop n := by
  induction l generalizing n with
  | nil =>
      simp at h
      subst h
      simp
  | cons x t ih =>
      cases n with
      | zero => simp
      | succ m =>
          simp only [List.insertIdx_succ_cons, List.take, List.drop]
          rw [ih m (by simpa using h)]
          simp

/-- Core queue-shape property of a mid-flush `queueWatcher` call: the
cursor prefix of the queue is untouched, the un-run tail keeps every
member, and the splice keeps the un-run tail sorted. -/
theorem queueWatcher_pending_step (st : SchedState) (w : Nat)
    (hf : st.flushing = true) (hl : st.index < st.queue.length) :
    st.index < (queueWatcher st w).queue.length ∧
    (∀ x, x ∈ st.queue.drop (st.index+1) → x ∈ (queueWatcher st w).queue.drop (st.index+1)) ∧
    (List.Sorted (· ≤ ·) (st.queue.drop (st.index+1)) →
      List.Sorted (· ≤ ·) ((queueWatcher st w).queue.drop (st.index+1))) := by
  by_cases hmem : w ∈ st.has
  · have heq : queueWatcher st w = st := by simp [queueWatcher, hmem]
    rw [heq]
    exact ⟨hl, fun x hx => hx, fun h => h⟩
  · have hne : st.queue.isEmpty = false := by
      cases hq : st.queue
      · rw [hq] at hl; simp at hl
      · simp [hq]
    have heq : queueWatcher st w
        = { st with
              has := w :: st.has
              queue := st.queue.insertIdx
                (spliceScanAux st.queue st.index w (st.queue.length - 1) + 1) w } := by
      simp only [queueWatcher, if_neg hmem]
      rw [if_neg (by simp [hf])]
      rw [if_neg (by simpa using hne)]
    rw [heq]
    set p := spliceScanAux st.queue st.index w (st.queue.length - 1) with hp
    set q := st.queue with hq
    have hlen1 : st.index ≤ q.length - 1 := by omega
    have hple : p ≤ q.length - 1 := spliceScanAux_le_self q st.index w _
    have hpge : st.index ≤ p := spliceScanAux_ge_idx q st.index w _ hlen1
    have hp1 : p + 1 ≤ q.length := by omega
    have hdecomp : q.insertIdx (p+1) w = q.take (p+1) ++ w :: q.drop (p+1) :=
      insertIdx_eq_take_cons_drop q (p+1) w hp1
    have htklen : (q.take (p+1)).length = p + 1 := by
      simp [hp1]
    have hidx1 : st.index + 1 ≤ (q.take (p+1)).length := by omega
    have hnewdrop : (q.insertIdx (p+1) w).drop (st.index+1)
        = (q.take (p+1)).drop (st.index+1) ++ w :: q.drop (p+1) := by
      rw [hdecomp, List.drop_append_of_le_length hidx1]
    have holddrop : q.drop (st.index+1)
        = (q.take (p+1)).drop (st.index+1) ++ q.drop (p+1) := by
      conv_lhs => rw [← List.take_append_drop (p+1) q]
      rw [List.drop_append_of_le_length hidx1]
    refine ⟨?_, ?_, ?_⟩
    · calc st.index < q.length := hl
        _ ≤ (q.insertIdx (p+1) w).length := List.length_le_length_insertIdx q w (p+1)
    · intro x hx
      rw [holddrop] at hx
      rw [hnewdrop]
      rcases List.mem_append.mp hx with hx | hx
      · exact List.mem_append_left _ hx
      · exact List.mem_append_right _ (List.mem_cons_of_mem _ hx)
    · intro hsorted
      rw [hnewdrop]
      rw [holddrop] at hsorted
      obtain ⟨hA, hB, hAB⟩ := List.pairwise_append.mp hsorted
      -- every element of the un-run tail before the insertion point is at most w
      have hAle : ∀ a ∈ (q.take (p+1)).drop (st.index+1), a ≤ w := by
        intro a ha
        rcases List.mem_iff_getElem.mp ha with ⟨jj, hjj, hval⟩
        have hjlen : (st.index + 1) + jj < (q.take (p+1)).length := by
          have := List.length_drop (st.index+1) (q.take (p+1))
          omega
        have hgd : ((q.take (p+1)).drop (st.index+1))[jj]
            = (q.take (p+1))[(st.index+1)+jj] := List.getElem_drop ..
        have hklt : (st.index+1)+jj < q.length := by omega
        have hgt : (q.take (p+1))[(st.index+1)+jj] = q[(st.index+1)+jj] := by
          rw [List.getElem_take]
        set k := (st.index+1)+jj with hk
        have hkp : k ≤ p := by
          rw [htklen] at hjlen
          omega
        have haq : a = q[k] := by
          rw [← hval, hgd, hgt]
        -- q[k] ≤ q[p] from sortedness of the old tail, and q[p] ≤ w from the scan stop
        have hplt : p < q.length := by omega
        have hqp : q.getD p 0 ≤ w := by
          refine spliceScanAux_at q st.index w (q.length - 1) ?_
          rw [← hp]
          omega
        have hqpv : q.getD p 0 = q[p] := List.getD_eq_getElem q 0 hplt
        have haqd : a = q.getD k 0 := by
          rw [haq, List.getD_eq_getElem q 0 hklt]
        by_cases hkeq : k = p
        · rw [haqd, hkeq]
          exact hqp
        · have hklt' : k < p := by omega
          -- both positions live in the old un-run tail
          have hTlen : (q.drop (st.index+1)).length = q.length - (st.index+1) := by
            simp
          have hkT : k - (st.index+1) < (q.drop (st.index+1)).length := by omega
          have hpT : p - (st.index+1) < (q.drop (st.index+1)).length := by omega
          have hTsorted : List.Sorted (· ≤ ·) (q.drop (st.index+1)) := by
            rw [holddrop]
            exact List.pairwise_append.mpr ⟨hA, hB, hAB⟩
          have hrel := hTsorted.rel_get_of_le
            (a := ⟨k - (st.index+1), hkT⟩) (b := ⟨p - (st.index+1), hpT⟩)
            (by simp [Fin.le_def]; omega)
          have hgk : (q.drop (st.index+1)).get ⟨k - (st.index+1), hkT⟩ = q[k] := by
            simp only [List.get_eq_getElem]
            rw [List.getElem_drop q]
            congr 1
            omega
          have hgp : (q.drop (st.index+1)).get ⟨p - (st.index+1), hpT⟩ = q[p] := by
            simp only [List.get_eq_getElem]
            rw [List.getElem_drop q]
            congr 1
            omega
          rw [hgk, hgp] at hrel
          rw [haq]
          rw [hqpv] at hqp
          exact hrel.trans hqp
      -- every element after the insertion point is strictly above w
      have hBgt : ∀ b ∈ q.drop (p+1), w < b := by
        intro b hb
        rcases List.mem_iff_getElem.mp hb with ⟨jj, hjj, hval⟩
        have hjlen : (p+1) + jj < q.length := by
          have := List.length_drop (p+1) q
          omega
        have hgd : (q.drop (p+1))[jj] = q[(p+1)+jj] := List.getElem_drop ..
        have hup := spliceScanAux_upper q st.index w (q.length - 1) ((p+1)+jj)
          (by omega) (by omega)
        have : q.getD ((p+1)+jj) 0 = q[(p+1)+jj] := List.getD_eq_getElem q 0 hjlen
        rw [this] at hup
        rw [← hval, hgd]
        exact hup
      refine List.pairwise_append.mpr ⟨hA, ?_, ?_⟩
      · exact List.pairwise_cons.mpr ⟨fun b hb => (hBgt b hb).le, hB⟩
      · intro a ha y hy
        rcases List.mem_cons.mp hy with hy | hy
        · subst hy; exact hAle a ha
        · exact hAB a ha y hy

theorem foldl_queueWatcher_preserves (l : List Nat) :
    ∀ st : SchedState,
      (l.foldl queueWatcher st).index = st.index ∧
      (l.foldl queueWatcher st).flushing = st.flushing ∧
      (l.foldl queueWatcher st).runLog = st.runLog ∧
      (l.foldl queueWatcher st).warned = st.warned ∧
      st.queue.length ≤ (l.foldl queueWatcher st).queue.length := by
  induction l with
  | nil => intro st; exact ⟨rfl, rfl, rfl, rfl, Nat.le_refl _⟩
  | cons w t ih =>
      intro st
      have h1 := queueWatcher_preserves st w
      have h2 := queueWatcher_queue_length st w
      have h3 := ih (queueWatcher st w)
      simp only [List.foldl_cons]
      exact ⟨h3.1.trans h1.1, h3.2.1.trans h1.2.1, h3.2.2.1.trans h1.2.2.1,
        h3.2.2.2.1.trans h1.2.2.2.1, h2.trans h3.2.2.2.2⟩

theorem foldl_queueWatcher_pending (l : List Nat) :
    ∀ st : SchedState, st.flushing = true → st.index < st.queue.length →
      st.index < (l.foldl queueWatcher st).queue.length ∧
      (∀ x, x ∈ st.queue.drop (st.index+1) → x ∈ (l.foldl queueWatcher st).queue.drop (st.index+1)) ∧
      (List.Sorted (· ≤ ·) (st.queue.drop (st.index+1)) →
        List.Sorted (· ≤ ·) ((l.foldl queueWatcher st).queue.drop (st.index+1))) := by
  induction l with
  | nil =>
      intro st hf hl
      exact ⟨hl, fun x hx => hx, fun h => h⟩
  | cons w t ih =>
      intro st hf hl
      have hstep := queueWatcher_pending_step st w hf hl
      have hpres := queueWatcher_preserves st w
      have hf2 : (queueWatcher st w).flushing = true := by rw [hpres.2.1, hf]
      have hl2 : (queueWatcher st w).index < (queueWatcher st w).queue.length := by
        rw [hpres.1]; exact hstep.1
      have hrec := ih (queueWatcher st w) hf2 hl2
      simp only [List.foldl_cons]
      rw [hpres.1] at hrec
      exact ⟨hrec.1, fun x hx => hrec.2.1 x (hstep.2.1 x hx),
        fun hs => hrec.2.2 (hstep.2.2 hs)⟩

theorem runOne_fst_fields (env : Nat → List Nat) (st : SchedState) :
    (runOne env st).1.queue = (runTriggers env st).queue ∧
    (runOne env st).1.index = st.index ∧
    (runOne env st).1.flushing = st.flushing ∧
    (runOne env st).1.runLog = st.runLog ++ [curWid st] := by
  have hpres := foldl_queueWatcher_preserves (env (curWid st))
    { st with has := st.has.erase (curWid st) }
  simp only [runOne, runTriggers] at *
  split
  · split
    · exact ⟨rfl, hpres.1, hpres.2.1, by rw [hpres.2.2.1]⟩
    · exact ⟨rfl, hpres.1, hpres.2.1, by rw [hpres.2.2.1]⟩
  · exact ⟨rfl, hpres.1, hpres.2.1, by rw [hpres.2.2.1]⟩

theorem runOne_warned_break (env : Nat → List Nat) (st : SchedState)
    (hb : (runOne env st).2 = true) :
    (runOne env st).1.warned = st.warned ++ [curWid st] := by
  have hpres := foldl_queueWatcher_preserves (env (curWid st))
    { st with has := st.has.erase (curWid st) }
  simp only [runOne, runTriggers] at *
  split at hb
  · split at hb
    · rename_i h1 h2
      rw [if_pos h1, if_pos h2]
      simp [hpres.2.2.2.1]
    · simp at hb
  · simp at hb

/-- Invariant of a flush-loop boundary: the flush flag is set and the
not-yet-run watchers form an ascending id sequence. -/
def FlushInv (st : SchedState) : Prop :=
  st.flushing = true ∧ List.Sorted (· ≤ ·) (Pending st)

theorem pending_cons (st : SchedState) (hl : st.index < st.queue.length) :
    Pending st = curWid st :: st.queue.drop (st.index + 1) := by
  unfold Pending curWid
  rw [List.drop_eq_getElem_cons hl, List.getD_eq_getElem st.queue 0 hl]

theorem runOne_step (env : Nat → List Nat) (st : SchedState)
    (hinv : FlushInv st) (hl : st.index < st.queue.length) :
    (runOne env st).1.index = st.index ∧
    (runOne env st).1.flushing = true ∧
    (runOne env st).1.runLog = st.runLog ++ [curWid st] ∧
    (∀ x, x ∈ st.queue.drop (st.index+1) → x ∈ (runOne env st).1.queue.drop (st.index+1)) ∧
    List.Sorted (· ≤ ·) ((runOne env st).1.queue.drop (st.index+1)) := by
  obtain ⟨hf, hsort⟩ := hinv
  have hfields := runOne_fst_fields env st
  have hsort1 : List.Sorted (· ≤ ·) (st.queue.drop (st.index+1)) := by
    have hsub : List.Sublist (st.queue.drop (st.index+1)) (Pending st) := by
      unfold Pending
      have h1 : st.queue.drop (st.index+1) = (st.queue.drop st.index).drop 1 := by
        rw [List.drop_drop]
      rw [h1]
      exact List.drop_sublist 1 (st.queue.drop st.index)
    exact hsort.sublist hsub
  have hbase : ({ st with has := st.has.erase (curWid st) } : SchedState).flushing = true := hf
  have hbasel : ({ st with has := st.has.erase (curWid st) } : SchedState).index
      < ({ st with has := st.has.erase (curWid st) } : SchedState).queue.length := hl
  have hfold := foldl_queueWatcher_pending (env (curWid st))
    { st with has := st.has.erase (curWid st) } hbase hbasel
  refine ⟨hfields.2.1, by rw [hfields.2.2.1, hf], hfields.2.2.2, ?_, ?_⟩
  · intro x hx
    rw [hfields.1]
    exact hfold.2.1 x hx
  · rw [hfields.1]
    exact hfold.2.2 hsort1

theorem boundary_inv (env : Nat → List Nat) (st : SchedState)
    (hinv : FlushInv st) (hl : st.index < st.queue.length) :
    FlushInv { (runOne env st).1 with index := (runOne env st).1.index + 1 } := by
  have hstep := runOne_step env st hinv hl
  constructor
  · exact hstep.2.1
  · show List.Sorted (· ≤ ·) ((runOne env st).1.queue.drop ((runOne env st).1.index + 1))
    rw [hstep.1]
    exact hstep.2.2.2.2

theorem flushLoop_runLog_ext (env : Nat → List Nat) :
    ∀ (fuel : Nat) (st : SchedState),
      ∃ t, (flushLoop env fuel st).runLog = st.runLog ++ t := by
  intro fuel
  induction fuel with
  | zero => intro st; exact ⟨[], by simp [flushLoop]⟩
  | succ fuel ih =>
      intro st
      simp only [flushLoop]
      split
      · rcases hr : runOne env st with ⟨st', brk⟩
        have hlog : st'.runLog = st.runLog ++ [curWid st] := by
          have := (runOne_fst_fields env st).2.2.2
          rw [hr] at this
          exact this
        cases brk
        · obtain ⟨t, ht⟩ := ih { st' with index := st'.index + 1 }
          refine ⟨[curWid st] ++ t, ?_⟩
          rw [ht]
          simp only []
          rw [hlog, List.append_assoc]
        · exact ⟨[curWid st], hlog⟩
      · exact ⟨[], by simp⟩

/-- The sequence of loop-boundary states of one flush: the states at
which the loop condition `index < queue.length` is evaluated (the last
entry being the state at the final check, or the state at which the
circular-update `break` fired). -/
def flushTrace (env : Nat → List Nat) : Nat → SchedState → List SchedState
  | 0, st => [st]
  | fuel+1, st =>
    if st.index < st.queue.length then
      match runOne env st with
      | (_, true) => [st]
      | (st', false) => st :: flushTrace env fuel { st' with index := st'.index + 1 }
    else [st]

theorem self_mem_flushTrace (env : Nat → List Nat) (fuel : Nat) (st : SchedState) :
    st ∈ flushTrace env fuel st := by
  cases fuel with
  | zero => simp [flushTrace]
  | succ fuel =>
      simp only [flushTrace]
      split
      · rcases runOne env st with ⟨st', brk⟩
        cases brk
        · exact List.mem_cons_self st _
        · exact List.mem_singleton_self st
      · exact List.mem_singleton_self st

theorem pending_head_le (st : SchedState) (hinv : FlushInv st)
    (hl : st.index < st.queue.length) :
    ∀ x ∈ Pending st, curWid st ≤ x := by
  intro x hx
  have hpc := pending_cons st hl
  have hsorted := hinv.2
  rw [hpc] at hsorted hx
  rcases List.mem_cons.mp hx with h | h
  · exact Nat.le_of_eq h.symm
  · exact (List.pairwise_cons.mp hsorted).1 x h

/-- Core flush-ordering induction: from any loop boundary reached during
a flush with a sorted tail, two watchers both still pending at that
boundary run in id order in the remainder of the flush: the smaller id's
run is logged before the larger id's first subsequent run. -/
theorem flush_order_core (env : Nat → List Nat) :
    ∀ (fuel : Nat) (st : SchedState), FlushInv st →
      ∀ s, s ∈ flushTrace env fuel st →
      ∀ i j, i ∈ Pending s → j ∈ Pending s → i < j →
      ∃ t, (flushLoop env fuel st).runLog = s.runLog ++ t ∧
        (j ∈ t → i ∈ t.take (t.indexOf j)) := by
  intro fuel
  induction fuel with
  | zero =>
      intro st _ s hs i j _ _ _
      have hseq : s = st := by simpa [flushTrace] using hs
      subst hseq
      exact ⟨[], by simp [flushLoop], by intro h; simp at h⟩
  | succ fuel ih =>
      intro st hinv s hs i j hi hj hij
      by_cases hl : st.index < st.queue.length
      · rcases hr : runOne env st with ⟨st', brk⟩
        have hstep := runOne_step env st hinv hl
        rw [hr] at hstep
        cases brk with
        | true =>
            have htr : flushTrace env (fuel+1) st = [st] := by
              simp only [flushTrace, if_pos hl, hr]
            have hfl : flushLoop env (fuel+1) st = st' := by
              simp only [flushLoop, if_pos hl, hr]
            rw [htr] at hs
            have hseq : s = st := by simpa using hs
            rw [hseq] at hi hj ⊢
            refine ⟨[curWid st], by rw [hfl]; exact hstep.2.2.1, ?_⟩
            intro hjt
            have hjw : j = curWid st := by simpa using hjt
            have hle := pending_head_le st hinv hl i hi
            omega
        | false =>
            have htr : flushTrace env (fuel+1) st
                = st :: flushTrace env fuel { st' with index := st'.index + 1 } := by
              simp only [flushTrace, if_pos hl, hr]
            have hfl : flushLoop env (fuel+1) st
                = flushLoop env fuel { st' with index := st'.index + 1 } := by
              simp only [flushLoop, if_pos hl, hr]
            have hinv2 : FlushInv { st' with index := st'.index + 1 } := by
              have h := boundary_inv env st hinv hl
              rw [hr] at h
              exact h
            rw [htr] at hs
            rcases List.mem_cons.mp hs with hseq | hs'
            · rw [hseq] at hi hj ⊢
              have hlog2 : ({ st' with index := st'.index + 1 } : SchedState).runLog
                  = st.runLog ++ [curWid st] := hstep.2.2.1
              have hjw : j ≠ curWid st := by
                intro h
                have hle := pending_head_le st hinv hl i hi
                omega
              by_cases hiw : i = curWid st
              · obtain ⟨t', ht'⟩ := flushLoop_runLog_ext env fuel
                  { st' with index := st'.index + 1 }
                refine ⟨curWid st :: t', ?_, ?_⟩
                · rw [hfl, ht', hlog2]
                  simp
                · intro hjt
                  have hjt' : j ∈ t' := by
                    rcases List.mem_cons.mp hjt with h | h
                    · exact absurd h hjw
                    · exact h
                  rw [List.indexOf_cons_ne _ (fun h => hjw h.symm), List.take_succ_cons]
                  exact hiw ▸ List.mem_cons_self _ _
              · have hpc := pending_cons st hl
                have hiR : i ∈ st.queue.drop (st.index+1) := by
                  rw [hpc] at hi
                  rcases List.mem_cons.mp hi with h | h
                  · exact absurd h hiw
                  · exact h
                have hjR : j ∈ st.queue.drop (st.index+1) := by
                  rw [hpc] at hj
                  rcases List.mem_cons.mp hj with h | h
                  · exact absurd h hjw
                  · exact h
                have hi2 : i ∈ Pending { st' with index := st'.index + 1 } := by
                  show i ∈ st'.queue.drop (st'.index + 1)
                  rw [hstep.1]
                  exact hstep.2.2.2.1 i hiR
                have hj2 : j ∈ Pending { st' with index := st'.index + 1 } := by
                  show j ∈ st'.queue.drop (st'.index + 1)
                  rw [hstep.1]
                  exact hstep.2.2.2.1 j hjR
                obtain ⟨t', ht', hprop⟩ := ih { st' with index := st'.index + 1 } hinv2
                  { st' with index := st'.index + 1 }
                  (self_mem_flushTrace env fuel _) i j hi2 hj2 hij
                refine ⟨curWid st :: t', ?_, ?_⟩
                · rw [hfl, ht', hstep.2.2.1]
                  simp
                · intro hjt
                  have hjt' : j ∈ t' := by
                    rcases List.mem_cons.mp hjt with h | h
                    · exact absurd h hjw
                    · exact h
                  rw [List.indexOf_cons_ne _ (fun h => hjw h.symm), List.take_succ_cons]
                  exact List.mem_cons_of_mem _ (hprop hjt')
            · obtain ⟨t, ht, hp⟩ := ih { st' with index := st'.index + 1 } hinv2 s hs' i j hi hj hij
              rw [hfl]
              exact ⟨t, ht, hp⟩
      · have htr : flushTrace env (fuel+1) st = [st] := by
          simp only [flushTrace, if_neg hl]
        have hfl : flushLoop env (fuel+1) st = st := by
          simp only [flushLoop, if_neg hl]
        rw [htr] at hs
        have hseq : s = st := by simpa using hs
        subst hseq
        exact ⟨[], by rw [hfl]; simp, by intro h; simp at h⟩

/-- C4: within one flush (started by sorting the queue), take any loop
boundary `s` the flush reaches — including boundaries after watchers were
spliced into the queue mid-flush — and any two watchers `i < j` both
pending at `s`.  Then the remainder of the flush runs `i` to completion
before `j`'s next run begins: in the run log produced after `s`, an
occurrence of `i` precedes the first occurrence of `j`. -/
theorem flush_parent_before_child (env : Nat → List Nat) (fuel : Nat)
    (st0 : SchedState) (s : SchedState) (i j : Nat)
    (hs : s ∈ flushTrace env fuel (startFlush st0))
    (hi : i ∈ Pending s) (hj : j ∈ Pending s) (hij : i < j) :
    ∃ t, (flushLoop env fuel (startFlush st0)).runLog = s.runLog ++ t ∧
      (j ∈ t → i ∈ t.take (t.indexOf j)) := by
  have hinv : FlushInv (startFlush st0) := by
    constructor
    · rfl
    · show List.Sorted (· ≤ ·) ((startFlush st0).queue.drop 0)
      rw [List.drop_zero]
      exact List.sorted_insertionSort (· ≤ ·) st0.queue
  exact flush_order_core env fuel (startFlush st0) hinv s hs i j hi hj hij

/-- Closed instance of `flush_parent_before_child`: flushing the queue
[5, 6] where running watcher 5 triggers watchers 3 and 8 mid-flush.  At
the boundary after 5's run, 3 (spliced in before 6) and 6 are both
pending; the theorem yields that 3 runs before 6 — the actual run order
is [5, 3, 6, 8]. -/
theorem flush_parent_before_child_witness :
    (flushLoop (fun w => if w = 5 then [3, 8] else []) 10
        (startFlush (schedInit [5, 6]))).runLog = [5, 3, 6, 8] ∧
    ∃ t, (flushLoop (fun w => if w = 5 then [3, 8] else []) 10
        (startFlush (schedInit [5, 6]))).runLog
          = ((flushTrace (fun w => if w = 5 then [3, 8] else []) 10
              (startFlush (schedInit [5, 6]))).getD 1 emptySched).runLog ++ t ∧
      (6 ∈ t → 3 ∈ t.take (t.indexOf 6)) := by
  refine ⟨by decide, ?_⟩
  exact flush_parent_before_child (fun w => if w = 5 then [3, 8] else []) 10
    (schedInit [5, 6])
    ((flushTrace (fun w => if w = 5 then [3, 8] else []) 10
      (startFlush (schedInit [5, 6]))).getD 1 emptySched)
    3 6 (by decide) (by decide) (by decide) (by decide)

/-- Re-schedule behaviour of a runaway watcher: watcher 1 re-queues
itself on every run; watcher 2 triggers nothing. -/
def envLoop : Nat → List Nat := fun w => if w = 1 then [1] else []

set_option maxRecDepth 100000 in
/-- C1 counterexample: flushing the queue [1, 2] where watcher 1
unconditionally re-schedules itself.  Watcher 2 is pending in the same
flush and the "infinite update loop" diagnostic fires for watcher 1, but
watcher 2's `run()` never happens: the dev-mode guard `break`s out of
the whole flush loop, so the flush does not complete the runs of the
other pending watchers, contradicting the claim as stated. -/
theorem scheduler_circular_counterexample :
    2 ∈ Pending (startFlush (schedInit [1, 2])) ∧
    (flushSchedulerQueue envLoop 150 (schedInit [1, 2])).warned = [1] ∧
    2 ∉ (flushSchedulerQueue envLoop 150 (schedInit [1, 2])).runLog := by
  decide

/-- C1 (amended): when during a flush a watcher's re-schedule counter
passes the threshold (the circular-update check fires, returning the
break flag), the scheduler reports the "infinite update loop" diagnostic
for that watcher and aborts the remaining flush loop entirely via
`break`: the flush ends at that very iteration, so the offending
watcher's further runs are skipped and so are the runs of every watcher
still pending behind it. -/
theorem scheduler_circular_break (env : Nat → List Nat) (st : SchedState) (fuel : Nat)
    (hl : st.index < st.queue.length) (hb : (runOne env st).2 = true) :
    flushLoop env (fuel+1) st = (runOne env st).1 ∧
    (runOne env st).1.warned = st.warned ++ [curWid st] ∧
    (runOne env st).1.runLog = st.runLog ++ [curWid st] := by
  refine ⟨?_, runOne_warned_break env st hb, (runOne_fst_fields env st).2.2.2⟩
  simp only [flushLoop, if_pos hl]
  have hb' : (runOne env st).2 = true := hb
  rcases hr : runOne env st with ⟨st', brk⟩
  rw [hr] at hb'
  cases brk
  · simp at hb'
  · rfl

/-- Mid-flush state one trigger away from the threshold: watcher 1 is
at the cursor with `circular[1] = 100` already accumulated. -/
def breakSt : SchedState := ⟨[1], 0, [1], [(1, 100)], true, [], []⟩

/-- Closed instance of `scheduler_circular_break` at `breakSt`. -/
theorem scheduler_circular_break_witness :
    (runOne envLoop breakSt).2 = true ∧
    flushLoop envLoop 5 breakSt = (runOne envLoop breakSt).1 ∧
    (runOne envLoop breakSt).1.warned = [1] := by
  refine ⟨by decide, (scheduler_circular_break envLoop breakSt 4 (by decide) (by decide)).1, ?_⟩
  have h := (scheduler_circular_break envLoop breakSt 4 (by decide) (by decide)).2.1
  simpa using h

/-! ### Tree diff: updateChildren (patch module) -/

/-- A child virtual node as `updateChildren` inspects it: the `key`, the
element identity discriminators used by `sameVnode` (`tag`, `isComment`,
whether `data` is defined, and the input type attribute), and the real
node reference `elm` (an id standing for the DOM node; defined on old
vnodes, assigned to new vnodes by `patchVnode`). -/
structure MVNode where
  key : Option Nat
  tag : String
  isComment : Bool
  hasData : Bool
  inputType : Option String
  elm : Option Nat
deriving DecidableEq, Repr

/-- Modelled from the spec: `isTextInputType` (web/util/element, not
under src/) — the text-like input types an input element may switch
between while staying the "same node". -/
def isTextInputType (t : Option String) : Bool :=
  match t with
  | some s => s ∈ ["text", "number", "password", "search", "email", "tel", "url"]
  | none => false

/-- Embedding of `sameInputType` (patch module, lines 59-70). -/
def sameInputTypeM (a b : MVNode) : Bool :=
  if a.tag ≠ "input" then true
  else a.inputType == b.inputType || (isTextInputType a.inputType && isTextInputType b.inputType)

/-- Embedding of `sameVnode` (patch module, lines 38-57) for element
vnodes: equal keys, equal tags, both-or-neither comments, both-or-neither
with data, and the same input type.  The async-placeholder disjunct
(`isAsyncPlaceholder` with equal `asyncFactory`) is false for the element
vnodes modelled here and is omitted. -/
def sameVnodeM (a b : MVNode) : Bool :=
  a.key == b.key &&
    (a.tag == b.tag && a.isComment == b.isComment && a.hasData == b.hasData && sameInputTypeM a b)

/-- Real-node operations performed against the parent element:
`move e ref` is a `nodeOps.insertBefore` of an existing element,
`create e ref` a `createElm` (building a fresh element and inserting it),
`remove e` a removal by `removeVnodes`. -/
inductive DomOp where
  | move (elm : Nat) (ref : Option Nat)
  | create (elm : Nat) (ref : Option Nat)
  | remove (elm : Nat)
deriving DecidableEq, Repr

/-- The parent's real children, the operation log, and the allocator for
fresh element ids. -/
structure PatchEnv where
  dom : List Nat
  ops : List DomOp
  nextId : Nat
deriving DecidableEq, Repr

def insertBeforeAux : List Nat → Nat → Nat → List Nat
  | [], e, _ => [e]
  | x :: t, e, r => if x = r then e :: x :: t else x :: insertBeforeAux t e r

/-- `parentElm.insertBefore(e, ref)`: detach `e` if present, then insert
it before `ref` (append when `ref` is null). -/
def insertBeforeList (children : List Nat) (e : Nat) (ref : Option Nat) : List Nat :=
  let l := children.erase e
  match ref with
  | none => l ++ [e]
  | some r => insertBeforeAux l e r

/-- `nodeOps.nextSibling(e)`: the real node after `e`. -/
def nextSiblingL : List Nat → Nat → Option Nat
  | [], _ => none
  | x :: t, e => if x = e then t.head? else nextSiblingL t e

/-- A `nodeOps.insertBefore` moving an existing element. -/
def domMove (env : PatchEnv) (e : Nat) (ref : Option Nat) : PatchEnv :=
  { env with dom := insertBeforeList env.dom e ref, ops := env.ops ++ [DomOp.move e ref] }

/-- `createElm(vnode, …, parentElm, refElm)`: build a fresh real node and
insert it before `refElm`; returns the new node's id. -/
def createElmM (env : PatchEnv) (ref : Option Nat) : PatchEnv × Nat :=
  let e := env.nextId
  ({ dom := insertBeforeList env.dom e ref
     ops := env.ops ++ [DomOp.create e ref]
     nextId := e + 1 }, e)

/-- Real-node removal (the structural effect of
`removeAndInvokeRemoveHook` / `removeNode`). -/
def removeNodeM (env : PatchEnv) (e : Nat) : PatchEnv :=
  { env with dom := env.dom.erase e, ops := env.ops ++ [DomOp.remove e] }

/-- Indexed lookup with JavaScript array semantics: out-of-range reads
give undefined. -/
def getI (l : List MVNode) (i : Int) : Option MVNode :=
  if 0 ≤ i ∧ i < l.length then l[i.toNat]? else none

/-- Lookup in the working copy of `oldCh`, whose slots can have been set
to undefined by the key-move branch. -/
def getO (l : List (Option MVNode)) (i : Int) : Option MVNode :=
  if 0 ≤ i ∧ i < l.length then (l[i.toNat]?).getD none else none

def setO (l : List (Option MVNode)) (i : Int) (v : Option MVNode) : List (Option MVNode) :=
  if 0 ≤ i then l.set i.toNat v else l

/-- The `vnode.elm = oldVnode.elm` assignment `patchVnode` performs on
the new vnode (its own attribute/text/children patching adds no
structural operation on this parent for the leaf vnodes modelled). -/
def setElmOpt (l : List MVNode) (i : Int) (e : Option Nat) : List MVNode :=
  if 0 ≤ i then
    match l[i.toNat]? with
    | some v => l.set i.toNat { v with elm := e }
    | none => l
  else l

/-- Inclusive integer range `[a..b]`. -/
def intRange (a b : Int) : List Int :=
  if a ≤ b then (List.range (b - a + 1).toNat).map (fun n => a + n) else []

/-- Embedding of `createKeyToOldIdx(children, beginIdx, endIdx)`: key to
index over the un-consumed old range, later indices overwriting earlier
ones (entries are prepended, and lookup finds the most recent). -/
def createKeyToOldIdx (children : List (Option MVNode)) (beginIdx endIdx : Int) :
    List (Nat × Int) :=
  (intRange beginIdx endIdx).foldl (fun m i =>
    match getO children i with
    | some v =>
        match v.key with
        | some k => (k, i) :: m
        | none => m
    | none => m) []

/-- Embedding of `findIdxInOld(node, oldCh, start, end)`: the first index
in `[start, end)` (the source's loop is exclusive of `end`) holding a
defined vnode that is `sameVnode` with `node`. -/
def findIdxInOld (node : MVNode) (oldCh : List (Option MVNode)) (start finish : Int) :
    Option Int :=
  (intRange start (finish - 1)).find? (fun i =>
    match getO oldCh i with
    | some c => sameVnodeM node c
    | none => false)

/-- Working state of the four-pointer loop. -/
structure UCState where
  oldCh : List (Option MVNode)
  newCh : List MVNode
  oldStartIdx : Int
  oldEndIdx : Int
  newStartIdx : Int
  newEndIdx : Int
  keyMap : Option (List (Nat × Int))
  env : PatchEnv
deriving DecidableEq, Repr

/-- The `while (oldStartIdx <= oldEndIdx && newStartIdx <= newEndIdx)`
loop of `updateChildren` (patch module, lines 568-623), with the source's
branch order: skip consumed slots, the four `sameVnode` probes (start
<-> start, end <-> end, start <-> end with a move right, end <-> start
with a move left), then the key-map branch (create when absent; patch,
consume and move when found and same; create when the key collides with
a different element).  The vnode pointers are re-read from the lists at
each iteration, which coincides with the source's cached variables
because a consumed slot is strictly interior when a pointer reaches it. -/
def updateChildrenLoop : Nat → UCState → UCState
  | 0, st => st
  | fuel+1, st =>
    if st.oldStartIdx ≤ st.oldEndIdx ∧ st.newStartIdx ≤ st.newEndIdx then
      match getO st.oldCh st.oldStartIdx with
      | none => updateChildrenLoop fuel { st with oldStartIdx := st.oldStartIdx + 1 }
      | some osv =>
        match getO st.oldCh st.oldEndIdx with
        | none => updateChildrenLoop fuel { st with oldEndIdx := st.oldEndIdx - 1 }
        | some oev =>
          match getI st.newCh st.newStartIdx, getI st.newCh st.newEndIdx with
          | some nsv, some nev =>
            if sameVnodeM osv nsv then
              updateChildrenLoop fuel { st with
                newCh := setElmOpt st.newCh st.newStartIdx osv.elm
                oldStartIdx := st.oldStartIdx + 1
                newStartIdx := st.newStartIdx + 1 }
            else if sameVnodeM oev nev then
              updateChildrenLoop fuel { st with
                newCh := setElmOpt st.newCh st.newEndIdx oev.elm
                oldEndIdx := st.oldEndIdx - 1
                newEndIdx := st.newEndIdx - 1 }
            else if sameVnodeM osv nev then
              let env2 := match osv.elm, oev.elm with
                | some e, some eref => domMove st.env e (nextSiblingL st.env.dom eref)
                | _, _ => st.env
              updateChildrenLoop fuel { st with
                newCh := setElmOpt st.newCh st.newEndIdx osv.elm
                env := env2
                oldStartIdx := st.oldStartIdx + 1
                newEndIdx := st.newEndIdx - 1 }
            else if sameVnodeM oev nsv then
              let env2 := match oev.elm, osv.elm with
                | some e, some eref => domMove st.env e (some eref)
                | _, _ => st.env
              updateChildrenLoop fuel { st with
                newCh := setElmOpt st.newCh st.newStartIdx oev.elm
                env := env2
                oldEndIdx := st.oldEndIdx - 1
                newStartIdx := st.newStartIdx + 1 }
            else
              let km := match st.keyMap with
                | some m => m
                | none => createKeyToOldIdx st.oldCh st.oldStartIdx st.oldEndIdx
              let idxInOld : Option Int := match nsv.key with
                | some k => km.lookup k
                | none => findIdxInOld nsv st.oldCh st.oldStartIdx st.oldEndIdx
              match idxInOld with
              | none =>
                  let pr := createElmM st.env osv.elm
                  updateChildrenLoop fuel { st with
                    keyMap := some km
                    env := pr.1
                    newCh := setElmOpt st.newCh st.newStartIdx (some pr.2)
                    newStartIdx := st.newStartIdx + 1 }
              | some idx =>
                  match getO st.oldCh idx with
                  | some vtm =>
                      if sameVnodeM vtm nsv then
                        let env2 := match vtm.elm, osv.elm with
                          | some e, some eref => domMove st.env e (some eref)
                          | _, _ => st.env
                        updateChildrenLoop fuel { st with
                          keyMap := some km
                          oldCh := setO st.oldCh idx none
                          env := env2
                          newCh := setElmOpt st.newCh st.newStartIdx vtm.elm
                          newStartIdx := st.newStartIdx + 1 }
                      else
                        let pr := createElmM st.env osv.elm
                        updateChildrenLoop fuel { st with
                          keyMap := some km
                          env := pr.1
                          newCh := setElmOpt st.newCh st.newStartIdx (some pr.2)
                          newStartIdx := st.newStartIdx + 1 }
                  | none =>
                      let pr := createElmM st.env osv.elm
                      updateChildrenLoop fuel { st with
                        keyMap := some km
                        env := pr.1
                        newCh := setElmOpt st.newCh st.newStartIdx (some pr.2)
                        newStartIdx := st.newStartIdx + 1 }
          | _, _ => st
    else st

/-- `addVnodes(parentElm, refElm, newCh, startIdx, endIdx)`: create each
remaining new vnode before `refElm`. -/
def addVnodesM (st : UCState) (refElm : Option Nat) (startIdx endIdx : Int) : UCState :=
  (intRange startIdx endIdx).foldl (fun s i =>
    let pr := createElmM s.env refElm
    { s with env := pr.1, newCh := setElmOpt s.newCh i (some pr.2) }) st

/-- `removeVnodes(parentElm, oldCh, startIdx, endIdx)`: remove the real
node of each defined leftover old vnode. -/
def removeVnodesM (st : UCState) (startIdx endIdx : Int) : UCState :=
  (intRange startIdx endIdx).foldl (fun s i =>
    match getO s.oldCh i with
    | some v =>
        match v.elm with
        | some e => { s with env := removeNodeM s.env e }
        | none => s
    | none => s) st

/-- Embedding of `updateChildren(parentElm, oldCh, newCh, …)` (patch
module, lines 538-632): run the four-pointer loop, then bulk-insert the
leftover new vnodes before `newCh[newEndIdx + 1].elm` (old side consumed
first) or bulk-remove the leftover old vnodes (new side consumed
first). -/
def updateChildren (oldCh newCh : List MVNode) (env : PatchEnv) (fuel : Nat) : UCState :=
  let st0 : UCState :=
    { oldCh := oldCh.map some
      newCh := newCh
      oldStartIdx := 0
      oldEndIdx := (oldCh.length : Int) - 1
      newStartIdx := 0
      newEndIdx := (newCh.length : Int) - 1
      keyMap := none
      env := env }
  let st := updateChildrenLoop fuel st0
  if st.oldStartIdx > st.oldEndIdx then
    let refElm := match getI st.newCh (st.newEndIdx + 1) with
      | some v => v.elm
      | none => none
    addVnodesM st refElm st.newStartIdx st.newEndIdx
  else if st.newStartIdx > st.newEndIdx then
    removeVnodesM st st.oldStartIdx st.oldEndIdx
  else st

/-- Old children [a, b, c, d] with keys [1, 2, 3, 4] and real nodes
[10, 11, 12, 13]. -/
def oldRot : List MVNode :=
  [⟨some 1, "li", false, true, none, some 10⟩,
   ⟨some 2, "li", false, true, none, some 11⟩,
   ⟨some 3, "li", false, true, none, some 12⟩,
   ⟨some 4, "li", false, true, none, some 13⟩]

/-- New children [d, a, b, c]: the same keyed nodes rotated once. -/
def newRot : List MVNode :=
  [⟨some 4, "li", false, true, none, none⟩,
   ⟨some 1, "li", false, true, none, none⟩,
   ⟨some 2, "li", false, true, none, none⟩,
   ⟨some 3, "li", false, true, none, none⟩]

/-- C3: diffing [a, b, c, d] (keys 1-4) against the rotation
[d, a, b, c] performs exactly one real-node operation — one
`insertBefore` moving existing node 13 (d) before node 10 (a) — with
zero creations and zero removals, and ends with real child order
[d, a, b, c] = [13, 10, 11, 12]. -/
theorem updateChildren_rotation_single_move :
    (updateChildren oldRot newRot ⟨[10, 11, 12, 13], [], 100⟩ 10).env.ops
      = [DomOp.move 13 (some 10)] ∧
    (updateChildren oldRot newRot ⟨[10, 11, 12, 13], [], 100⟩ 10).env.dom
      = [13, 10, 11, 12] := by
  decide

end Vue
